import Mathlib

/-!
Verification of the GoCask storage engine (a Bitcask-style append-only
key-value store) against its natural-language specification.

The Go sources under `internal/` are shallowly embedded here:
- byte sequences are `List Nat` (each element a byte value),
- machine integers are `Nat` with explicit `% 2^32` / `% 2^64` where the
  Go code truncates (`uint32(len(key))` and so on),
- the file system is a map from segment id to the segment's flushed byte
  content, and the 64 KiB `bufio.Writer` is an explicit `pending` byte list,
- fallible operations return `Except`.

Functions referenced by the engine but not present in the provided sources
(`parseEntry`, `writeLogEntryBuffered`, `LogEntry.IsDeleted`) are modelled
from the specification and carry a doc comment saying so.
-/

namespace GoCask

/-- Byte sequences (Go `[]byte` / `string`): lists of byte values. -/
abbrev Bytes := List Nat

/-- Big-endian interpretation of a byte list (how `binary.Read` with
`binary.BigEndian` folds the bytes of a fixed-width integer). -/
def be (b : Bytes) : Nat := b.foldl (fun acc x => acc * 256 + x) 0

/-- Big-endian encoding of a `uint32` (Go `binary.Write` of a `uint32`). -/
def u32be (n : Nat) : Bytes :=
  [n % 2 ^ 32 / 2 ^ 24 % 256, n % 2 ^ 32 / 2 ^ 16 % 256,
   n % 2 ^ 32 / 2 ^ 8 % 256, n % 2 ^ 32 % 256]

/-- Big-endian encoding of a 64-bit integer (Go `binary.Write` of an `int64`;
timestamps are nonnegative, so the unsigned view coincides). -/
def u64be (n : Nat) : Bytes :=
  [n % 2 ^ 64 / 2 ^ 56 % 256, n % 2 ^ 64 / 2 ^ 48 % 256,
   n % 2 ^ 64 / 2 ^ 40 % 256, n % 2 ^ 64 / 2 ^ 32 % 256,
   n % 2 ^ 64 / 2 ^ 24 % 256, n % 2 ^ 64 / 2 ^ 16 % 256,
   n % 2 ^ 64 / 2 ^ 8 % 256, n % 2 ^ 64 % 256]

/-- Go `binary.Write` of a `bool`: one byte, 1 for true and 0 for false. -/
def boolByte (b : Bool) : Nat := if b then 1 else 0

/-- One bit step of the reflected CRC-32C division
(polynomial 0x82F63B78, as in Go's `crc32.Castagnoli` table). -/
def crc32cStep (c : Nat) : Nat :=
  if c % 2 = 1 then (c / 2) ^^^ 0x82F63B78 else c / 2

/-- Feed one byte into the reflected CRC-32C state. -/
def crc32cByte (c b : Nat) : Nat :=
  (crc32cStep ∘ crc32cStep ∘ crc32cStep ∘ crc32cStep ∘
   crc32cStep ∘ crc32cStep ∘ crc32cStep ∘ crc32cStep) (c ^^^ b % 256)

/-- `calcCRC` from `aof.go`: CRC-32 with the Castagnoli polynomial
(`crc32.Checksum(data, crc32.MakeTable(crc32.Castagnoli))`). -/
def calcCRC (data : Bytes) : Nat :=
  (data.foldl crc32cByte 0xFFFFFFFF) ^^^ 0xFFFFFFFF

/-- `MaxActiveFileSize` from `constants.go`: 128 MiB. -/
def MaxActiveFileSize : Nat := 128 * 1024 * 1024

/-- `logEntryHeaderSize` from the sources: 4 + 8 + 4 + 4 + 1 = 21 bytes. -/
def logEntryHeaderSize : Nat := 21

/-- `LogEntry` from `aof.go`: the decoded on-disk record. -/
@[ext]
structure LogEntry where
  crc : Nat
  timestamp : Nat
  keySize : Nat
  valueSize : Nat
  tombstone : Bool
  Key : Bytes
  Value : Bytes
deriving Repr, DecidableEq

/-- `LogEntry.Size` from `aof.go`: total encoded size,
`4 + 8 + 4 + 4 + 1 + len(Key) + len(Value)`. -/
def LogEntry.Size (e : LogEntry) : Nat := 21 + e.Key.length + e.Value.length

/-- Modelled from the spec: `IsDeleted` is called on decoded entries by
`Get` and by recovery but its body is not in the provided sources; per the
spec a record is a logical delete exactly when its tombstone flag is set. -/
def LogEntry.IsDeleted (e : LogEntry) : Bool := e.tombstone

/-- `NewLogEntry` from `aof.go`: builds a record, truncating the lengths to
`uint32` and computing the CRC over
{timestamp, key length, value length, tombstone, key, value}.
The timestamp (`time.Now().UnixNano()` in Go) is passed in explicitly. -/
def NewLogEntry (ts : Nat) (key value : Bytes) (tombstone : Bool) : LogEntry :=
  let keySize := key.length % 2 ^ 32
  let valueSize := value.length % 2 ^ 32
  let data := u64be ts ++ u32be keySize ++ u32be valueSize ++
    [boolByte tombstone] ++ key ++ value
  { crc := calcCRC data
    timestamp := ts % 2 ^ 64
    keySize := keySize
    valueSize := valueSize
    tombstone := tombstone
    Key := key
    Value := value }

/-- The byte image `writeLogEntry` (`aof.go`) produces: the five header
fields big-endian in order {crc, timestamp, keySize, valueSize, tombstone},
then the key bytes, then the value bytes. -/
def encodeLogEntry (e : LogEntry) : Bytes :=
  u32be e.crc ++ u64be e.timestamp ++ u32be e.keySize ++ u32be e.valueSize ++
    [boolByte e.tombstone] ++ e.Key ++ e.Value

/-- Errors surfaced by the embedded engine: the two `io` sentinel errors
produced by short reads, and the two lookup failures of `Get`/`Delete`. -/
inductive GoErr where
  | eof
  | unexpectedEOF
  | keyNotFound
  | fileNotFound
deriving Repr, DecidableEq

deriving instance DecidableEq for Except

/-- Decoding of a complete in-memory record buffer, as done by
`readLogEntryWithSize` (`aof.go`) after its single contiguous read:
parse the 21-byte header, check the buffer holds header plus declared
payload, then slice out key and value.  The stored CRC is read but never
compared to a computed one. -/
def decodeRecordBuf (buf : Bytes) : Except GoErr LogEntry :=
  let ks := be ((buf.drop 12).take 4)
  let vs := be ((buf.drop 16).take 4)
  if buf.length < 21 + ks + vs then .error .unexpectedEOF
  else .ok
    { crc := be (buf.take 4)
      timestamp := be ((buf.drop 4).take 8)
      keySize := ks
      valueSize := vs
      tombstone := (buf.drop 20).headD 0 != 0
      Key := (buf.drop 21).take ks
      Value := (buf.drop (21 + ks)).take vs }

/-- `readLogEntryWithSize` from `aof.go`: fail if `size` is below the
21-byte header, read `size` bytes at `offset` with `io.ReadFull` over a
section reader (EOF when no byte is available, unexpected EOF on a short
read), then decode the buffer. -/
def readLogEntryWithSize (file : Bytes) (offset size : Nat) :
    Except GoErr LogEntry :=
  if size < 21 then .error .unexpectedEOF
  else if file.length < offset + size then
    (if file.length ≤ offset then .error .eof else .error .unexpectedEOF)
  else decodeRecordBuf ((file.drop offset).take size)

/-- Key length declared by the header at the head of `rest`. -/
def declaredKeySize (rest : Bytes) : Nat := be ((rest.drop 12).take 4)

/-- Value length declared by the header at the head of `rest`. -/
def declaredValueSize (rest : Bytes) : Nat := be ((rest.drop 16).take 4)

/-- Modelled from the spec: `parseEntry` is called by
`rebuildKeyDirFromFile` (`bitcask.go`) but its body is not in the provided
sources.  Per the spec's sequential scan it decodes the next record at the
current position and returns it with its total size; it reports `io.EOF`
at a record boundary with no bytes left, and `io.ErrUnexpectedEOF` when
the remaining bytes are shorter than the 21-byte header or shorter than
header plus declared key and value lengths. -/
def parseEntry (rest : Bytes) : Except GoErr (LogEntry × Nat) :=
  if rest.length = 0 then .error .eof
  else if rest.length < 21 then .error .unexpectedEOF
  else
    let ks := declaredKeySize rest
    let vs := declaredValueSize rest
    let size := 21 + ks + vs
    if rest.length < size then .error .unexpectedEOF
    else .ok
      ({ crc := be (rest.take 4)
         timestamp := be ((rest.drop 4).take 8)
         keySize := ks
         valueSize := vs
         tombstone := (rest.drop 20).headD 0 != 0
         Key := (rest.drop 21).take ks
         Value := (rest.drop (21 + ks)).take vs }, size)

/-- `ValuePointer` from `bitcask.go`: the key-directory locator. -/
structure ValuePointer where
  FileId : Nat
  Offset : Nat
  Size : Nat
deriving Repr, DecidableEq

/-- The in-memory key directory: key bytes to locator. -/
abbrev KeyDir := Bytes → Option ValuePointer

/-- The embedded `BitCask` state (`bitcask.go`).  `files` maps a segment id
to that segment's flushed on-disk bytes (`Files` holds the handles in Go;
the active file is in the map too).  `pending` is the content of the
64 KiB `bufio.Writer` that has not reached the file yet.  `hasActive`
mirrors `ActiveFile != nil`. -/
structure BitCask where
  keyDir : KeyDir
  files : Nat → Option Bytes
  currentFileId : Nat
  activeSize : Nat
  pending : Bytes
  hasActive : Bool

/-- `RollNewFile` from `bitcask.go`: sync and close the old active file
(the `bufio.Writer` is replaced without being flushed, so `pending` is
discarded), open segment `currentFileId + 1` with `O_CREATE|O_RDWR|O_APPEND`
(existing content, if any, is kept), reset the tracked size to 0 and attach
a fresh buffered writer. -/
def RollNewFile (bc : BitCask) : BitCask :=
  let newId := bc.currentFileId + 1
  { bc with
    currentFileId := newId
    files := fun i => if i = newId then some ((bc.files newId).getD []) else bc.files i
    activeSize := 0
    pending := []
    hasActive := true }

/-- `bufio.Writer.Flush`: move the pending bytes to the end of the active
segment's on-disk content. -/
def flushWriter (bc : BitCask) : BitCask :=
  { bc with
    files := fun i =>
      if i = bc.currentFileId then
        some (((bc.files bc.currentFileId).getD []) ++ bc.pending)
      else bc.files i
    pending := [] }

/-- Modelled from the spec: `writeLogEntryBuffered` is called by `Put` and
`Delete` (`bitcask.go`) but its body is not in the provided sources.  Per
the spec's write path it appends the record's encoded bytes through the
buffered writer and returns the number of bytes written. -/
def writeLogEntryBuffered (bc : BitCask) (e : LogEntry) : BitCask × Nat :=
  ({ bc with pending := bc.pending ++ encodeLogEntry e }, (encodeLogEntry e).length)

/-- `Put` from `bitcask.go`: build the record, rotate when there is no
active file or `ActiveSize + entry.Size() >= MaxActiveFileSize`, capture
the pre-append size as the offset, append through the buffered writer,
flush, install the locator and grow the tracked size. -/
def Put (bc : BitCask) (ts : Nat) (key value : Bytes) : BitCask :=
  let entry := NewLogEntry ts key value false
  let bc1 :=
    if bc.hasActive = false ∨ MaxActiveFileSize ≤ bc.activeSize + entry.Size
    then RollNewFile bc else bc
  let offset := bc1.activeSize
  let wr := writeLogEntryBuffered bc1 entry
  let bc3 := flushWriter wr.1
  { bc3 with
    keyDir := fun k =>
      if k = key then some ⟨bc3.currentFileId, offset, entry.Size⟩ else bc3.keyDir k
    activeSize := bc3.activeSize + wr.2 }

/-- `Get` from `bitcask.go`: directory lookup, segment-handle lookup,
positional read of `Size` bytes at `Offset`, tombstone check, value. -/
def Get (bc : BitCask) (key : Bytes) : Except GoErr Bytes :=
  match bc.keyDir key with
  | none => .error .keyNotFound
  | some vp =>
    match bc.files vp.FileId with
    | none => .error .fileNotFound
    | some file =>
      match readLogEntryWithSize file vp.Offset vp.Size with
      | .error e => .error e
      | .ok entry =>
        if entry.IsDeleted then .error .keyNotFound else .ok entry.Value

/-- `Delete` from `bitcask.go`: fail when the key is absent, otherwise
append a tombstone (rotating first on overflow, and without flushing the
buffered writer), grow the tracked size and drop the directory entry. -/
def Delete (bc : BitCask) (ts : Nat) (key : Bytes) : Except GoErr BitCask :=
  if (bc.keyDir key).isNone then .error .keyNotFound
  else
    let entry := NewLogEntry ts key [] true
    let bc1 :=
      if bc.hasActive = false ∨ MaxActiveFileSize ≤ bc.activeSize + entry.Size
      then RollNewFile bc else bc
    let wr := writeLogEntryBuffered bc1 entry
    .ok { wr.1 with
      activeSize := wr.1.activeSize + wr.2
      keyDir := fun k => if k = key then none else wr.1.keyDir k }

/-- `Sync` from `bitcask.go`: flush the buffered writer, then fsync the
active file (fsync has no effect in this crash-free model). -/
def Sync (bc : BitCask) : BitCask := flushWriter bc

/-- The body of the recovery loop of `rebuildKeyDirFromFile`
(`bitcask.go`): a tombstone removes the key, any other record upserts the
key with locator {fileId, offset, size}. -/
def rebuildStep (fileId : Nat) (kd : KeyDir) (r : LogEntry × Nat × Nat) : KeyDir :=
  if r.1.IsDeleted then fun k => if k = r.1.Key then none else kd k
  else fun k => if k = r.1.Key then some ⟨fileId, r.2.1, r.2.2⟩ else kd k

/-- `parseEntry` never reports anything but the two end-of-input errors. -/
theorem parseEntry_error_cases {rest : Bytes} {e : GoErr}
    (h : parseEntry rest = .error e) : e = .eof ∨ e = .unexpectedEOF := by
  simp only [parseEntry] at h
  split at h
  · exact Or.inl (by injection h with h; exact h.symm)
  · split at h
    · exact Or.inr (by injection h with h; exact h.symm)
    · split at h
      · exact Or.inr (by injection h with h; exact h.symm)
      · exact absurd h (by simp)

/-- Success of `parseEntry` bounds the returned size. -/
theorem parseEntry_ok_bounds {rest : Bytes} {e : LogEntry} {n : Nat}
    (h : parseEntry rest = .ok (e, n)) : 21 ≤ n ∧ n ≤ rest.length := by
  simp only [parseEntry] at h
  split at h
  · exact absurd h (by simp)
  · split at h
    · exact absurd h (by simp)
    · split at h
      · exact absurd h (by simp)
      · rename_i h0 h1 h2
        injection h with h
        injection h with h3 h4
        subst h4
        omega

/-- The recursion behind `rebuildKeyDirFromFile` (`bitcask.go`): keep
parsing records sequentially; a tombstone removes its key and any other
record upserts it with the running offset; the loop ends at `io.EOF` or
`io.ErrUnexpectedEOF` (the only errors `parseEntry` produces, see
`parseEntry_error_cases`, so recovery of a segment never fails). -/
def rebuildGo (fileId : Nat) (kd : KeyDir) (rest : Bytes) (offset : Nat) : KeyDir :=
  match h : parseEntry rest with
  | .error _ => kd
  | .ok (e, size) =>
    rebuildGo fileId (rebuildStep fileId kd (e, offset, size)) (rest.drop size) (offset + size)
termination_by rest.length
decreasing_by
  have := parseEntry_ok_bounds h
  simp only [List.length_drop]
  omega

/-- `rebuildKeyDirFromFile` from `bitcask.go`: scan one segment from
offset 0, applying tombstones and upserts in physical order. -/
def rebuildKeyDirFromFile (kd : KeyDir) (fileId : Nat) (file : Bytes) : KeyDir :=
  rebuildGo fileId kd file 0

/-- The accumulator of the `LoadFiles` enumeration loop. -/
structure LoadAcc where
  keyDir : KeyDir
  files : Nat → Option Bytes
  maxId : Nat

/-- One iteration of the `LoadFiles` loop (`bitcask.go`): track the
maximum id, open the file read-only into `Files`, and replay it into the
key directory. -/
def loadStep (acc : LoadAcc) (seg : Nat × Bytes) : LoadAcc :=
  { keyDir := rebuildKeyDirFromFile acc.keyDir seg.1 seg.2
    files := fun i => if i = seg.1 then some seg.2 else acc.files i
    maxId := max acc.maxId seg.1 }

/-- `LoadFiles` from `bitcask.go`.  The directory listing is passed as the
list of (segment id, content) pairs in the order `filepath.Glob` returns
them: Glob sorts names lexicographically, and for the engine's zero-padded
six-digit `%06d.log` names that is ascending id order (files whose stem
does not parse as a decimal id are skipped and not in the list).  After
the scan the file with the maximum id, if any, is reopened for append,
its end offset becomes the tracked active size, and a fresh buffered
writer is attached. -/
def LoadFiles (disk : List (Nat × Bytes)) : BitCask :=
  let acc := disk.foldl loadStep ⟨fun _ => none, fun _ => none, 0⟩
  if 0 < acc.maxId then
    { keyDir := acc.keyDir
      files := acc.files
      currentFileId := acc.maxId
      activeSize := ((acc.files acc.maxId).getD []).length
      pending := []
      hasActive := true }
  else
    { keyDir := acc.keyDir
      files := acc.files
      currentFileId := acc.maxId
      activeSize := 0
      pending := []
      hasActive := false }

/-- `Open` from `bitcask.go`: load existing segments, then roll a first
segment when no active file was found. -/
def Open (disk : List (Nat × Bytes)) : BitCask :=
  let bc := LoadFiles disk
  if bc.hasActive then bc else RollNewFile bc

/-- A directory listing in the order Glob yields the engine's own
zero-padded names: strictly ascending segment ids. -/
def SortedDisk (disk : List (Nat × Bytes)) : Prop :=
  disk.Pairwise (fun a b => a.1 < b.1)

/-- A mutation issued against the engine. -/
inductive Op where
  | put (ts : Nat) (k v : Bytes)
  | del (ts : Nat) (k : Bytes)

/-- Length bounds of the wire format: the record header stores key and
value lengths in 32-bit fields, so keys and values are shorter than
2^32 bytes. -/
def Op.WF : Op → Prop
  | .put _ k v => k.length < 2 ^ 32 ∧ v.length < 2 ^ 32
  | .del _ k => k.length < 2 ^ 32

/-- Apply one mutation; a failed `Delete` returns early in Go and leaves
the state unchanged. -/
def applyOp (bc : BitCask) (op : Op) : BitCask :=
  match op with
  | .put ts k v => Put bc ts k v
  | .del ts k =>
    match Delete bc ts k with
    | .ok bc' => bc'
    | .error _ => bc

/-- States reachable by `Open` on some directory followed by any sequence
of (successful) `Put` and `Delete` operations within the wire format's
length bounds. -/
def Reachable (bc : BitCask) : Prop :=
  ∃ (disk : List (Nat × Bytes)) (ops : List Op), SortedDisk disk ∧
    (∀ op ∈ ops, op.WF) ∧ bc = ops.foldl applyOp (Open disk)

/-! ### Codec lemmas -/

theorem u32be_length (n : Nat) : (u32be n).length = 4 := rfl

theorem u64be_length (n : Nat) : (u64be n).length = 8 := rfl

theorem be_u32be (n : Nat) : be (u32be n) = n % 2 ^ 32 := by
  have h : (2 : Nat) ^ 32 = 4294967296 := by norm_num
  simp only [u32be, be, List.foldl, h]
  omega

theorem be_u64be (n : Nat) : be (u64be n) = n % 2 ^ 64 := by
  have h : (2 : Nat) ^ 64 = 18446744073709551616 := by norm_num
  simp only [u64be, be, List.foldl, h]
  omega

theorem boolByte_bne (b : Bool) : (boolByte b != 0) = b := by
  cases b <;> decide

theorem encodeLogEntry_length (e : LogEntry) :
    (encodeLogEntry e).length = e.Size := by
  simp only [encodeLogEntry, LogEntry.Size, List.length_append, u32be_length,
    u64be_length, List.length_cons, List.length_nil]

theorem crc32cStep_lt {c : Nat} (h : c < 2 ^ 32) : crc32cStep c < 2 ^ 32 := by
  unfold crc32cStep
  split
  · exact Nat.xor_lt_two_pow (by omega) (by norm_num)
  · omega

theorem crc32cByte_lt {c : Nat} (b : Nat) (h : c < 2 ^ 32) :
    crc32cByte c b < 2 ^ 32 := by
  unfold crc32cByte
  simp only [Function.comp_apply]
  have h0 : c ^^^ b % 256 < 2 ^ 32 :=
    Nat.xor_lt_two_pow h (lt_of_lt_of_le (Nat.mod_lt _ (by norm_num)) (by norm_num))
  exact crc32cStep_lt (crc32cStep_lt (crc32cStep_lt (crc32cStep_lt
    (crc32cStep_lt (crc32cStep_lt (crc32cStep_lt (crc32cStep_lt h0)))))))

theorem calcCRC_lt (data : Bytes) : calcCRC data < 2 ^ 32 := by
  unfold calcCRC
  have h : ∀ (l : Bytes) (c : Nat), c < 2 ^ 32 → l.foldl crc32cByte c < 2 ^ 32 := by
    intro l
    induction l with
    | nil => intro c hc; exact hc
    | cons a l ih => intro c hc; exact ih _ (crc32cByte_lt a hc)
  exact Nat.xor_lt_two_pow (h data _ (by norm_num)) (by norm_num)

/-- An entry whose header fields are consistent with its payload: what
`NewLogEntry` produces for keys and values within the 32-bit length
fields of the wire format. -/
def wellFormedEntry (e : LogEntry) : Prop :=
  e.crc < 2 ^ 32 ∧ e.timestamp < 2 ^ 64 ∧ e.keySize = e.Key.length ∧
    e.valueSize = e.Value.length ∧ e.Key.length < 2 ^ 32 ∧ e.Value.length < 2 ^ 32

theorem newLogEntry_wf (ts : Nat) (key value : Bytes) (tomb : Bool)
    (hk : key.length < 2 ^ 32) (hv : value.length < 2 ^ 32) :
    wellFormedEntry (NewLogEntry ts key value tomb) := by
  refine ⟨calcCRC_lt _, Nat.mod_lt _ (by norm_num), ?_, ?_, hk, hv⟩
  · exact Nat.mod_eq_of_lt hk
  · exact Nat.mod_eq_of_lt hv

theorem newLogEntry_size (ts : Nat) (key value : Bytes) (tomb : Bool) :
    (NewLogEntry ts key value tomb).Size = 21 + key.length + value.length := rfl

/-- The record image followed by anything, fully right-associated. -/
theorem encodeLogEntry_assoc (e : LogEntry) (rest : Bytes) :
    encodeLogEntry e ++ rest =
      u32be e.crc ++ (u64be e.timestamp ++ (u32be e.keySize ++ (u32be e.valueSize ++
        ([boolByte e.tombstone] ++ (e.Key ++ (e.Value ++ rest)))))) := by
  simp [encodeLogEntry, List.append_assoc]

/-- Slicing an encoded record (with arbitrary following bytes) recovers
the header fields and the payload region. -/
theorem slice_encode (e : LogEntry) (rest : Bytes) :
    (encodeLogEntry e ++ rest).take 4 = u32be e.crc ∧
    ((encodeLogEntry e ++ rest).drop 4).take 8 = u64be e.timestamp ∧
    ((encodeLogEntry e ++ rest).drop 12).take 4 = u32be e.keySize ∧
    ((encodeLogEntry e ++ rest).drop 16).take 4 = u32be e.valueSize ∧
    ((encodeLogEntry e ++ rest).drop 20).headD 0 = boolByte e.tombstone ∧
    (encodeLogEntry e ++ rest).drop 21 = e.Key ++ (e.Value ++ rest) := by
  have h0 := encodeLogEntry_assoc e rest
  have d4 : (encodeLogEntry e ++ rest).drop 4 =
      u64be e.timestamp ++ (u32be e.keySize ++ (u32be e.valueSize ++
        ([boolByte e.tombstone] ++ (e.Key ++ (e.Value ++ rest))))) := by
    rw [h0]; exact List.drop_left' (u32be_length _)
  have d12 : (encodeLogEntry e ++ rest).drop 12 =
      u32be e.keySize ++ (u32be e.valueSize ++
        ([boolByte e.tombstone] ++ (e.Key ++ (e.Value ++ rest)))) := by
    have : (12 : Nat) = 4 + 8 := rfl
    rw [this, ← List.drop_drop, d4]
    exact List.drop_left' (u64be_length _)
  have d16 : (encodeLogEntry e ++ rest).drop 16 =
      u32be e.valueSize ++ ([boolByte e.tombstone] ++ (e.Key ++ (e.Value ++ rest))) := by
    have : (16 : Nat) = 12 + 4 := rfl
    rw [this, ← List.drop_drop, d12]
    exact List.drop_left' (u32be_length _)
  have d20 : (encodeLogEntry e ++ rest).drop 20 =
      [boolByte e.tombstone] ++ (e.Key ++ (e.Value ++ rest)) := by
    have : (20 : Nat) = 16 + 4 := rfl
    rw [this, ← List.drop_drop, d16]
    exact List.drop_left' (u32be_length _)
  have d21 : (encodeLogEntry e ++ rest).drop 21 = e.Key ++ (e.Value ++ rest) := by
    have h21 : (21 : Nat) = 20 + 1 := rfl
    rw [h21, ← List.drop_drop, d20]
    rfl
  refine ⟨?_, ?_, ?_, ?_, ?_, d21⟩
  · rw [h0]; exact List.take_left' (u32be_length _)
  · rw [d4]; exact List.take_left' (u64be_length _)
  · rw [d12]; exact List.take_left' (u32be_length _)
  · rw [d16]; exact List.take_left' (u32be_length _)
  · rw [d20]; rfl

/-- Decoding the exact byte image of a well-formed record recovers it.
(The stored CRC plays no role: it is only copied.) -/
theorem decodeRecordBuf_encode (e : LogEntry) (h : wellFormedEntry e) :
    decodeRecordBuf (encodeLogEntry e) = .ok e := by
  obtain ⟨hc, ht, hks, hvs, hkl, hvl⟩ := h
  have hs := slice_encode e []
  obtain ⟨s1, s2, s3, s4, s5, s6⟩ := hs
  rw [List.append_nil] at s1 s2 s3 s4 s5 s6
  have hks' : be ((encodeLogEntry e).drop 12 |>.take 4) = e.keySize := by
    rw [s3, be_u32be, hks, Nat.mod_eq_of_lt hkl]
  have hvs' : be ((encodeLogEntry e).drop 16 |>.take 4) = e.valueSize := by
    rw [s4, be_u32be, hvs, Nat.mod_eq_of_lt hvl]
  unfold decodeRecordBuf
  simp only [hks', hvs']
  rw [if_neg]
  · congr 1
    have hKey : ((encodeLogEntry e).drop 21).take e.keySize = e.Key := by
      rw [s6, hks]; exact List.take_left' rfl
    have hVal : ((encodeLogEntry e).drop (21 + e.keySize)).take e.valueSize = e.Value := by
      have hdr : (encodeLogEntry e).drop (21 + e.keySize) = e.Value ++ [] := by
        rw [← List.drop_drop, s6, hks]
        exact List.drop_left' rfl
      rw [hdr, List.append_nil, hvs]
      exact List.take_length _
    refine LogEntry.ext ?_ ?_ rfl rfl ?_ hKey hVal
    · rw [s1, be_u32be, Nat.mod_eq_of_lt hc]
    · rw [s2, be_u64be, Nat.mod_eq_of_lt ht]
    · rw [s5, boolByte_bne]
  · rw [encodeLogEntry_length]
    simp only [LogEntry.Size, hks, hvs]
    omega

/-- Parsing at the start of a well-formed encoded record (with arbitrary
following bytes) yields that record and its total size. -/
theorem parseEntry_encode (e : LogEntry) (h : wellFormedEntry e) (rest : Bytes) :
    parseEntry (encodeLogEntry e ++ rest) = .ok (e, e.Size) := by
  obtain ⟨hc, ht, hks, hvs, hkl, hvl⟩ := h
  obtain ⟨s1, s2, s3, s4, s5, s6⟩ := slice_encode e rest
  have hlen : (encodeLogEntry e ++ rest).length = e.Size + rest.length := by
    rw [List.length_append, encodeLogEntry_length]
  have hks' : declaredKeySize (encodeLogEntry e ++ rest) = e.Key.length := by
    rw [declaredKeySize, s3, be_u32be, hks, Nat.mod_eq_of_lt hkl]
  have hvs' : declaredValueSize (encodeLogEntry e ++ rest) = e.Value.length := by
    rw [declaredValueSize, s4, be_u32be, hvs, Nat.mod_eq_of_lt hvl]
  unfold parseEntry
  rw [if_neg (by rw [hlen]; simp only [LogEntry.Size]; omega)]
  rw [if_neg (by rw [hlen]; simp only [LogEntry.Size]; omega)]
  simp only [hks', hvs']
  rw [if_neg (by rw [hlen]; simp only [LogEntry.Size]; omega)]
  have hKey : ((encodeLogEntry e ++ rest).drop 21).take e.Key.length = e.Key := by
    rw [s6]; exact List.take_left' rfl
  have hVal : ((encodeLogEntry e ++ rest).drop (21 + e.Key.length)).take e.Value.length
      = e.Value := by
    have hdr : (encodeLogEntry e ++ rest).drop (21 + e.Key.length) = e.Value ++ rest := by
      rw [← List.drop_drop, s6]
      exact List.drop_left' rfl
    rw [hdr]
    exact List.take_left' rfl
  congr 1
  rw [Prod.mk.injEq]
  constructor
  · refine LogEntry.ext ?_ ?_ (by rw [hks]) (by rw [hvs]) ?_ hKey hVal
    · rw [s1, be_u32be, Nat.mod_eq_of_lt hc]
    · rw [s2, be_u64be, Nat.mod_eq_of_lt ht]
    · rw [s5, boolByte_bne]
  · simp only [LogEntry.Size]

theorem headD_take {l : Bytes} {m : Nat} (d : Nat) (h : 0 < m) :
    (l.take m).headD d = l.headD d := by
  cases l with
  | nil => simp
  | cons a l =>
    cases m with
    | zero => omega
    | succ m => simp

/-- A positional read of a freshly appended well-formed record at the old
end of the file succeeds and recovers the record. -/
theorem read_encode_at (pre : Bytes) (e : LogEntry) (h : wellFormedEntry e) :
    readLogEntryWithSize (pre ++ encodeLogEntry e) pre.length e.Size = .ok e := by
  unfold readLogEntryWithSize
  rw [if_neg (by simp only [LogEntry.Size]; omega)]
  rw [if_neg (by
    rw [List.length_append, encodeLogEntry_length]
    omega)]
  have hdrop : (pre ++ encodeLogEntry e).drop pre.length = encodeLogEntry e :=
    List.drop_left' rfl
  rw [hdrop, ← encodeLogEntry_length e, List.take_length]
  exact decodeRecordBuf_encode e h

/-- Positional reads are stable under appending bytes at the end of the
file (appends never move or change earlier records). -/
theorem readLogEntryWithSize_append {file : Bytes} {o n : Nat} {e : LogEntry}
    (t : Bytes) (h : readLogEntryWithSize file o n = .ok e) :
    readLogEntryWithSize (file ++ t) o n = .ok e := by
  unfold readLogEntryWithSize at h ⊢
  split at h
  · exact absurd h (by simp)
  · split at h
    · split at h <;> exact absurd h (by simp)
    · rename_i h1 h2
      rw [if_neg h1]
      rw [if_neg (by rw [List.length_append]; omega)]
      have hslice : ((file ++ t).drop o).take n = (file.drop o).take n := by
        rw [List.drop_append_of_le_length (by omega)]
        exact List.take_append_of_le_length (by simp only [List.length_drop]; omega)
      rw [hslice]
      exact h

/-- A record yielded by the sequential scan at some offset is exactly what
the positional read path returns for the locator installed for it, and the
scan size is header plus actual payload lengths. -/
theorem parseEntry_read {file : Bytes} {o : Nat} {e : LogEntry} {n : Nat}
    (h : parseEntry (file.drop o) = .ok (e, n)) :
    o + n ≤ file.length ∧ readLogEntryWithSize file o n = .ok e ∧
      n = 21 + e.Key.length + e.Value.length ∧
      e.keySize = e.Key.length ∧ e.valueSize = e.Value.length := by
  simp only [parseEntry] at h
  split at h
  · exact absurd h (by simp)
  · split at h
    · exact absurd h (by simp)
    · split at h
      · exact absurd h (by simp)
      · rename_i h0 h1 h2
        injection h with h
        injection h with he hn
        subst hn
        subst he
        rw [List.length_drop] at h0 h1 h2
        have hlt : 21 + declaredKeySize (file.drop o) + declaredValueSize (file.drop o)
            ≤ file.length - o := by omega
        have hKlen : (((file.drop o).drop 21).take (declaredKeySize (file.drop o))).length
            = declaredKeySize (file.drop o) := by
          simp only [List.length_take, List.length_drop]
          omega
        have hVlen : (((file.drop o).drop (21 + declaredKeySize (file.drop o))).take
            (declaredValueSize (file.drop o))).length = declaredValueSize (file.drop o) := by
          simp only [List.length_take, List.length_drop]
          omega
        refine ⟨by omega, ?_,
          by simp only [List.length_take, List.length_drop]; omega,
          by simp only [List.length_take, List.length_drop]; omega,
          by simp only [List.length_take, List.length_drop]; omega⟩
        unfold readLogEntryWithSize
        rw [if_neg (by omega), if_neg (by omega)]
        unfold decodeRecordBuf
        have hA : ∀ a b : Nat,
            a + b ≤ 21 + declaredKeySize (file.drop o) + declaredValueSize (file.drop o) →
            (((file.drop o).take (21 + declaredKeySize (file.drop o) +
              declaredValueSize (file.drop o))).drop a).take b
              = ((file.drop o).drop a).take b := by
          intro a b hab
          rw [List.drop_take, List.take_take]
          congr 1
          omega
        have hks2 : be ((((file.drop o).take (21 + declaredKeySize (file.drop o) +
            declaredValueSize (file.drop o))).drop 12).take 4)
            = declaredKeySize (file.drop o) := by
          rw [hA 12 4 (by omega)]; rfl
        have hvs2 : be ((((file.drop o).take (21 + declaredKeySize (file.drop o) +
            declaredValueSize (file.drop o))).drop 16).take 4)
            = declaredValueSize (file.drop o) := by
          rw [hA 16 4 (by omega)]; rfl
        simp only [hks2, hvs2]
        rw [if_neg (by
          rw [List.length_take, List.length_drop]
          omega)]
        congr 1
        refine LogEntry.ext ?_ ?_ rfl rfl ?_ ?_ ?_
        · show be ((((file.drop o).take (21 + declaredKeySize (file.drop o) +
            declaredValueSize (file.drop o))).take 4)) = _
          rw [List.take_take]
          congr 2
          omega
        · show be ((((file.drop o).take (21 + declaredKeySize (file.drop o) +
            declaredValueSize (file.drop o))).drop 4).take 8) = _
          rw [hA 4 8 (by omega)]
        · show ((((file.drop o).take (21 + declaredKeySize (file.drop o) +
            declaredValueSize (file.drop o))).drop 20).headD 0 != 0) = _
          rw [List.drop_take]
          rw [headD_take 0 (by omega)]
        · show (((file.drop o).take (21 + declaredKeySize (file.drop o) +
            declaredValueSize (file.drop o))).drop 21).take (declaredKeySize (file.drop o)) = _
          rw [hA 21 _ (by omega)]
        · show (((file.drop o).take (21 + declaredKeySize (file.drop o) +
            declaredValueSize (file.drop o))).drop
              (21 + declaredKeySize (file.drop o))).take (declaredValueSize (file.drop o)) = _
          rw [hA (21 + declaredKeySize (file.drop o)) _ (by omega)]

/-! ### The sequential scan as a record sequence -/

/-- The lazy sequence of (record, offset, size) a sequential scan yields
from the remaining bytes `rest`, offsets counted from `offset`
(spec section 4.2). -/
def segRecords (rest : Bytes) (offset : Nat) : List (LogEntry × Nat × Nat) :=
  match h : parseEntry rest with
  | .error _ => []
  | .ok (e, size) => (e, offset, size) :: segRecords (rest.drop size) (offset + size)
termination_by rest.length
decreasing_by
  have := parseEntry_ok_bounds h
  simp only [List.length_drop]
  omega

theorem segRecords_eq_nil {rest : Bytes} {off : Nat} {er : GoErr}
    (h : parseEntry rest = .error er) : segRecords rest off = [] := by
  rw [segRecords]
  split
  · rfl
  · rename_i e size heq
    rw [h] at heq
    exact absurd heq (by simp)

theorem segRecords_eq_cons {rest : Bytes} {off : Nat} {e : LogEntry} {size : Nat}
    (h : parseEntry rest = .ok (e, size)) :
    segRecords rest off = (e, off, size) :: segRecords (rest.drop size) (off + size) := by
  rw [segRecords]
  split
  · rename_i heq
    rw [h] at heq
    exact absurd heq (by simp)
  · rename_i e' size' heq
    rw [h] at heq
    injection heq with heq
    injection heq with h1 h2
    subst h1
    subst h2
    rfl

theorem rebuildGo_eq_stop {fid : Nat} {kd : KeyDir} {rest : Bytes} {off : Nat} {er : GoErr}
    (h : parseEntry rest = .error er) : rebuildGo fid kd rest off = kd := by
  rw [rebuildGo]
  split
  · rfl
  · rename_i e size heq
    rw [h] at heq
    exact absurd heq (by simp)

theorem rebuildGo_eq_step {fid : Nat} {kd : KeyDir} {rest : Bytes} {off : Nat}
    {e : LogEntry} {size : Nat} (h : parseEntry rest = .ok (e, size)) :
    rebuildGo fid kd rest off =
      rebuildGo fid (rebuildStep fid kd (e, off, size)) (rest.drop size) (off + size) := by
  conv_lhs => rw [rebuildGo]
  split
  · rename_i heq
    rw [h] at heq
    exact absurd heq (by simp)
  · rename_i e' size' heq
    rw [h] at heq
    injection heq with heq
    injection heq with h1 h2
    subst h1
    subst h2
    rfl

/-- The recovery loop is the left fold of its per-record step over the
records the sequential scan yields. -/
theorem rebuildGo_foldl (fid : Nat) :
    ∀ (n : Nat) (rest : Bytes) (off : Nat) (kd : KeyDir), rest.length ≤ n →
    rebuildGo fid kd rest off = (segRecords rest off).foldl (rebuildStep fid) kd := by
  intro n
  induction n with
  | zero =>
    intro rest off kd hle
    have hnil : rest = [] := List.eq_nil_of_length_eq_zero (by omega)
    subst hnil
    have hpe : parseEntry ([] : Bytes) = .error .eof := rfl
    rw [rebuildGo_eq_stop hpe, segRecords_eq_nil hpe]
    rfl
  | succ n ih =>
    intro rest off kd hle
    cases hp : parseEntry rest with
    | error er =>
      rw [rebuildGo_eq_stop hp, segRecords_eq_nil hp]
      rfl
    | ok p =>
      obtain ⟨e, size⟩ := p
      have hb := parseEntry_ok_bounds hp
      rw [rebuildGo_eq_step hp, segRecords_eq_cons hp, List.foldl_cons]
      exact ih (rest.drop size) (off + size) _ (by simp only [List.length_drop]; omega)

theorem rebuildKeyDirFromFile_foldl (kd : KeyDir) (fid : Nat) (file : Bytes) :
    rebuildKeyDirFromFile kd fid file = (segRecords file 0).foldl (rebuildStep fid) kd :=
  rebuildGo_foldl fid file.length file 0 kd le_rfl

/-- Every record the scan yields parses at its reported offset of the
scanned file. -/
theorem segRecords_sound (file : Bytes) :
    ∀ (n o : Nat), (file.drop o).length ≤ n →
    ∀ {e : LogEntry} {o' sz : Nat}, (e, o', sz) ∈ segRecords (file.drop o) o →
    parseEntry (file.drop o') = .ok (e, sz) := by
  intro n
  induction n with
  | zero =>
    intro o hle e o' sz hmem
    have hnil : file.drop o = [] := List.eq_nil_of_length_eq_zero (by omega)
    have hpe : parseEntry ([] : Bytes) = .error .eof := rfl
    rw [hnil, segRecords_eq_nil hpe] at hmem
    exact absurd hmem (by simp)
  | succ n ih =>
    intro o hle e o' sz hmem
    cases hp : parseEntry (file.drop o) with
    | error er =>
      rw [segRecords_eq_nil hp] at hmem
      exact absurd hmem (by simp)
    | ok p =>
      obtain ⟨e0, sz0⟩ := p
      have hb := parseEntry_ok_bounds hp
      rw [segRecords_eq_cons hp] at hmem
      rcases List.mem_cons.mp hmem with hh | hh
      · injection hh with hh1 hh2
        injection hh2 with hh2 hh3
        subst hh1
        subst hh2
        subst hh3
        exact hp
      · rw [List.drop_drop] at hh
        exact ih (o + sz0)
          (by simp only [List.length_drop] at hle ⊢; omega) hh

theorem segRecords_sound_zero {file : Bytes} {e : LogEntry} {o sz : Nat}
    (h : (e, o, sz) ∈ segRecords file 0) : parseEntry (file.drop o) = .ok (e, sz) := by
  have h0 : file.drop 0 = file := List.drop_zero file
  exact segRecords_sound file file.length 0 (by rw [h0]) (by rw [h0]; exact h)

/-! ### Last-writer-wins characterisation of the replay fold -/

/-- One record of the whole-directory replay: (file id, record, offset, size). -/
abbrev GRec := Nat × LogEntry × Nat × Nat

/-- The replay fold step over records tagged with their segment id. -/
def globalStep (kd : KeyDir) (r : GRec) : KeyDir :=
  if r.2.1.IsDeleted then fun k => if k = r.2.1.Key then none else kd k
  else fun k => if k = r.2.1.Key then some ⟨r.1, r.2.2.1, r.2.2.2⟩ else kd k

/-- The records of one directory entry of the listing, tagged with its id. -/
def segRecordsWithId (s : Nat × Bytes) : List GRec :=
  (segRecords s.2 0).map (fun r => (s.1, r))

/-- All records of a directory listing, in (segment, intra-segment) order. -/
def allRecords (disk : List (Nat × Bytes)) : List GRec :=
  disk.flatMap segRecordsWithId

/-- Looking a key up after the replay fold: the result is decided by the
last record for that key, with no reference to timestamps. -/
theorem foldl_globalStep_lookup (rs : List GRec) :
    ∀ (kd : KeyDir) (k : Bytes),
    (rs.foldl globalStep kd) k =
      match rs.reverse.find? (fun r => r.2.1.Key == k) with
      | none => kd k
      | some r => if r.2.1.IsDeleted then none else some ⟨r.1, r.2.2.1, r.2.2.2⟩ := by
  induction rs with
  | nil => intro kd k; rfl
  | cons r rs ih =>
    intro kd k
    rw [List.foldl_cons, ih, List.reverse_cons, List.find?_append]
    cases hf : rs.reverse.find? (fun r => r.2.1.Key == k) with
    | some r' => rfl
    | none =>
      show _ = (match ([r].find? fun r => r.2.1.Key == k) with
        | none => kd k
        | some r => if r.2.1.IsDeleted then none else some ⟨r.1, r.2.2.1, r.2.2.2⟩)
      cases hpk : (r.2.1.Key == k) with
      | true =>
        have hk : r.2.1.Key = k := by simpa using hpk
        simp only [List.find?_cons, hpk]
        unfold globalStep
        split
        · rename_i hdel
          simp [LogEntry.IsDeleted] at hdel
          simp [hk, LogEntry.IsDeleted, hdel]
        · rename_i hdel
          simp only [LogEntry.IsDeleted, Bool.not_eq_true] at hdel
          simp [hk, LogEntry.IsDeleted, hdel]
      | false =>
        have hk : ¬(k = r.2.1.Key) := by
          intro hc
          simp [hc] at hpk
        simp only [List.find?_cons, hpk]
        unfold globalStep
        split <;> simp [if_neg hk]

/-- `rebuildKeyDirFromFile` is the replay fold of that one segment. -/
theorem rebuildKeyDirFromFile_global (kd : KeyDir) (fid : Nat) (file : Bytes) :
    rebuildKeyDirFromFile kd fid file =
      (segRecordsWithId (fid, file)).foldl globalStep kd := by
  rw [rebuildKeyDirFromFile_foldl, segRecordsWithId, List.foldl_map]
  rfl

/-- A directory entry surviving the replay of one segment either was
already present, or locates a non-tombstone record of that segment that
the positional read path resolves to a record carrying the same key. -/
theorem rebuild_some {kd : KeyDir} {fid : Nat} {file : Bytes} {k : Bytes}
    {vp : ValuePointer} (h : rebuildKeyDirFromFile kd fid file k = some vp) :
    kd k = some vp ∨
      (vp.FileId = fid ∧ vp.Offset + vp.Size ≤ file.length ∧
        ∃ e, readLogEntryWithSize file vp.Offset vp.Size = .ok e ∧
          e.IsDeleted = false ∧ e.Key = k ∧
          vp.Size = 21 + e.Key.length + e.Value.length) := by
  rw [rebuildKeyDirFromFile_global, foldl_globalStep_lookup] at h
  revert h
  cases hf : (segRecordsWithId (fid, file)).reverse.find? (fun r => r.2.1.Key == k) with
  | none => intro h; exact Or.inl h
  | some r =>
    intro h
    right
    have hp := List.find?_some hf
    have hk : r.2.1.Key = k := by simpa using hp
    have hmem : r ∈ segRecordsWithId (fid, file) :=
      List.mem_reverse.mp (List.mem_of_find?_eq_some hf)
    obtain ⟨r0, hr0, hrr⟩ := List.mem_map.mp hmem
    obtain ⟨e0, o0, sz0⟩ := r0
    have hparse := segRecords_sound_zero hr0
    obtain ⟨hb, hread, hsz, _, _⟩ := parseEntry_read hparse
    have h' : (if r.2.1.IsDeleted = true then none
        else some (⟨r.1, r.2.2.1, r.2.2.2⟩ : ValuePointer)) = some vp := h
    rw [← hrr] at hk h'
    dsimp only at hk h' hb hread hparse
    split at h'
    · exact absurd h' (by simp)
    · rename_i hdel
      injection h' with h'
      subst h'
      refine ⟨rfl, hb, e0, hread, ?_, hk, hsz⟩
      simpa using hdel

/-! ### Engine invariants -/

theorem readLogEntryWithSize_ok_bounds {file : Bytes} {o n : Nat} {e : LogEntry}
    (h : readLogEntryWithSize file o n = .ok e) : 21 ≤ n ∧ o + n ≤ file.length := by
  unfold readLogEntryWithSize at h
  split at h
  · exact absurd h (by simp)
  · split at h
    · split at h <;> exact absurd h (by simp)
    · rename_i h1 h2
      omega

/-- Durability bookkeeping: the active segment's on-disk bytes plus the
bytes still in the buffered writer equal the tracked active size. -/
def SizeInv (bc : BitCask) : Prop :=
  ((bc.files bc.currentFileId).getD []).length + bc.pending.length = bc.activeSize

/-- A directory entry is backed by its segment: the locator's bytes decode
to a live record carrying the same key, and the locator size is header
plus payload. -/
def PointsOkF (files : Nat → Option Bytes) (k : Bytes) (vp : ValuePointer) : Prop :=
  ∃ file e, files vp.FileId = some file ∧
    readLogEntryWithSize file vp.Offset vp.Size = .ok e ∧
    e.IsDeleted = false ∧ e.Key = k ∧
    vp.Size = 21 + e.Key.length + e.Value.length

/-- The engine invariant maintained by `Open`, `Put` and `Delete`. -/
def Inv (bc : BitCask) : Prop :=
  bc.hasActive = true ∧ SizeInv bc ∧
    (∀ i, bc.currentFileId < i → bc.files i = none) ∧
    (∀ k vp, bc.keyDir k = some vp → PointsOkF bc.files k vp)

theorem pointsOkF_append {files : Nat → Option Bytes} {k : Bytes} {vp : ValuePointer}
    (cur : Nat) (t : Bytes) (h : PointsOkF files k vp) :
    PointsOkF (fun i => if i = cur then some ((files cur).getD [] ++ t) else files i) k vp := by
  obtain ⟨file, e, hf, hr, hd, hk, hs⟩ := h
  by_cases hc : vp.FileId = cur
  · refine ⟨file ++ t, e, ?_, readLogEntryWithSize_append t hr, hd, hk, hs⟩
    show (if vp.FileId = cur then some ((files cur).getD [] ++ t) else files vp.FileId)
      = some (file ++ t)
    rw [if_pos hc, ← hc, hf]
    rfl
  · refine ⟨file, e, ?_, hr, hd, hk, hs⟩
    show (if vp.FileId = cur then some ((files cur).getD [] ++ t) else files vp.FileId)
      = some file
    rw [if_neg hc]
    exact hf

theorem pointsOkF_fresh {files : Nat → Option Bytes} {k : Bytes} {vp : ValuePointer}
    (newId : Nat) (hnone : files newId = none) (h : PointsOkF files k vp) :
    PointsOkF (fun i => if i = newId then some ((files newId).getD []) else files i) k vp := by
  obtain ⟨file, e, hf, hr, hd, hk, hs⟩ := h
  refine ⟨file, e, ?_, hr, hd, hk, hs⟩
  show (if vp.FileId = newId then some ((files newId).getD []) else files vp.FileId)
    = some file
  rw [if_neg ?_]
  · exact hf
  · intro hc
    rw [hc, hnone] at hf
    exact absurd hf (by simp)

theorem inv_roll {bc : BitCask}
    (h3 : ∀ i, bc.currentFileId < i → bc.files i = none)
    (h4 : ∀ k vp, bc.keyDir k = some vp → PointsOkF bc.files k vp) :
    Inv (RollNewFile bc) := by
  have hfiles : (RollNewFile bc).files (bc.currentFileId + 1) = some [] := by
    show (if bc.currentFileId + 1 = bc.currentFileId + 1
      then some ((bc.files (bc.currentFileId + 1)).getD []) else bc.files (bc.currentFileId + 1))
      = some []
    rw [if_pos rfl, h3 _ (Nat.lt_succ_self _)]
    rfl
  refine ⟨rfl, ?_, ?_, ?_⟩
  · unfold SizeInv
    rw [show (RollNewFile bc).currentFileId = bc.currentFileId + 1 from rfl, hfiles]
    rfl
  · intro i hi
    have hi' : bc.currentFileId + 1 < i := hi
    show (if i = bc.currentFileId + 1
      then some ((bc.files (bc.currentFileId + 1)).getD []) else bc.files i) = none
    rw [if_neg (by omega)]
    exact h3 i (by omega)
  · intro k vp hk
    exact pointsOkF_fresh _ (h3 _ (Nat.lt_succ_self _)) (h4 k vp hk)

theorem inv_cond_roll {bc : BitCask} (hInv : Inv bc) (c : Prop) [Decidable c] :
    Inv (if c then RollNewFile bc else bc) := by
  split
  · exact inv_roll hInv.2.2.1 hInv.2.2.2
  · exact hInv

/-- The state `Put` installs on top of the (conditionally rotated)
intermediate state `bc1`: append through the buffer, flush, locator at the
pre-append size, size update. -/
def putResult (bc1 : BitCask) (ts : Nat) (k v : Bytes) : BitCask :=
  { keyDir := fun k' => if k' = k
      then some ⟨bc1.currentFileId, bc1.activeSize, (NewLogEntry ts k v false).Size⟩
      else bc1.keyDir k'
    files := fun i => if i = bc1.currentFileId
      then some (((bc1.files bc1.currentFileId).getD []) ++
        (bc1.pending ++ encodeLogEntry (NewLogEntry ts k v false)))
      else bc1.files i
    currentFileId := bc1.currentFileId
    activeSize := bc1.activeSize + (encodeLogEntry (NewLogEntry ts k v false)).length
    pending := []
    hasActive := bc1.hasActive }

theorem put_unfold (bc : BitCask) (ts : Nat) (k v : Bytes) :
    Put bc ts k v =
      putResult
        (if bc.hasActive = false ∨
            MaxActiveFileSize ≤ bc.activeSize + (NewLogEntry ts k v false).Size
          then RollNewFile bc else bc) ts k v := rfl

/-- The state `Delete` installs on top of the (conditionally rotated)
intermediate state `bc1`: tombstone appended to the buffer, no flush. -/
def deleteResult (bc1 : BitCask) (ts : Nat) (k : Bytes) : BitCask :=
  { keyDir := fun k' => if k' = k then none else bc1.keyDir k'
    files := bc1.files
    currentFileId := bc1.currentFileId
    activeSize := bc1.activeSize + (encodeLogEntry (NewLogEntry ts k [] true)).length
    pending := bc1.pending ++ encodeLogEntry (NewLogEntry ts k [] true)
    hasActive := bc1.hasActive }

theorem delete_unfold (bc : BitCask) (ts : Nat) (k : Bytes)
    (hsome : (bc.keyDir k).isNone = false) :
    Delete bc ts k = .ok
      (deleteResult
        (if bc.hasActive = false ∨
            MaxActiveFileSize ≤ bc.activeSize + (NewLogEntry ts k [] true).Size
          then RollNewFile bc else bc) ts k) := by
  unfold Delete
  rw [hsome]
  rfl

/-- The freshly installed locator of `Put` resolves: the keyed record sits
at the pre-append offset of the active segment. -/
theorem putResult_points (bc1 : BitCask) (hs : SizeInv bc1) (ts : Nat) (k v : Bytes)
    (hk : k.length < 2 ^ 32) (hv : v.length < 2 ^ 32) :
    (putResult bc1 ts k v).files bc1.currentFileId =
        some ((bc1.files bc1.currentFileId).getD [] ++
          (bc1.pending ++ encodeLogEntry (NewLogEntry ts k v false))) ∧
      readLogEntryWithSize
        ((bc1.files bc1.currentFileId).getD [] ++
          (bc1.pending ++ encodeLogEntry (NewLogEntry ts k v false)))
        bc1.activeSize (NewLogEntry ts k v false).Size = .ok (NewLogEntry ts k v false) := by
  constructor
  · show (if bc1.currentFileId = bc1.currentFileId then _ else _) = _
    rw [if_pos rfl]
  · rw [← List.append_assoc]
    have hlen : ((bc1.files bc1.currentFileId).getD [] ++ bc1.pending).length
        = bc1.activeSize := by
      rw [List.length_append]
      exact hs
    rw [← hlen]
    exact read_encode_at _ _ (newLogEntry_wf ts k v false hk hv)

theorem inv_putResult {bc1 : BitCask} (hInv1 : Inv bc1) (ts : Nat) {k v : Bytes}
    (hk : k.length < 2 ^ 32) (hv : v.length < 2 ^ 32) : Inv (putResult bc1 ts k v) := by
  obtain ⟨g1, g2, g3, g4⟩ := hInv1
  obtain ⟨hp1, hp2⟩ := putResult_points bc1 g2 ts k v hk hv
  refine ⟨g1, ?_, ?_, ?_⟩
  · unfold SizeInv
    rw [show (putResult bc1 ts k v).currentFileId = bc1.currentFileId from rfl, hp1]
    show ((bc1.files bc1.currentFileId).getD [] ++
        (bc1.pending ++ encodeLogEntry (NewLogEntry ts k v false))).length +
      (List.length ([] : Bytes)) = _
    simp only [List.length_append, List.length_nil]
    unfold SizeInv at g2
    show _ = bc1.activeSize + (encodeLogEntry (NewLogEntry ts k v false)).length
    omega
  · intro i hi
    have hi' : bc1.currentFileId < i := hi
    show (if i = bc1.currentFileId then _ else bc1.files i) = none
    rw [if_neg (by omega)]
    exact g3 i hi'
  · intro k' vp hvp
    have hvp' : (if k' = k
        then some (⟨bc1.currentFileId, bc1.activeSize, (NewLogEntry ts k v false).Size⟩
          : ValuePointer)
        else bc1.keyDir k') = some vp := hvp
    by_cases hkk : k' = k
    · rw [if_pos hkk] at hvp'
      injection hvp' with hvp'
      subst hvp'
      exact ⟨_, NewLogEntry ts k v false, hp1, hp2, rfl, hkk ▸ rfl, rfl⟩
    · rw [if_neg hkk] at hvp'
      exact pointsOkF_append _ _ (g4 k' vp hvp')

theorem inv_put {bc : BitCask} (hInv : Inv bc) (ts : Nat) {k v : Bytes}
    (hk : k.length < 2 ^ 32) (hv : v.length < 2 ^ 32) : Inv (Put bc ts k v) := by
  rw [put_unfold]
  exact inv_putResult (inv_cond_roll hInv _) ts hk hv

theorem inv_deleteResult {bc1 : BitCask} (hInv1 : Inv bc1) (ts : Nat) (k : Bytes) :
    Inv (deleteResult bc1 ts k) := by
  obtain ⟨g1, g2, g3, g4⟩ := hInv1
  refine ⟨g1, ?_, g3, ?_⟩
  · unfold SizeInv
    show ((bc1.files bc1.currentFileId).getD []).length +
      (bc1.pending ++ encodeLogEntry (NewLogEntry ts k [] true)).length =
      bc1.activeSize + (encodeLogEntry (NewLogEntry ts k [] true)).length
    rw [List.length_append]
    unfold SizeInv at g2
    omega
  · intro k' vp hvp
    have hvp' : (if k' = k then none else bc1.keyDir k') = some vp := hvp
    by_cases hkk : k' = k
    · rw [if_pos hkk] at hvp'
      exact absurd hvp' (by simp)
    · rw [if_neg hkk] at hvp'
      exact g4 k' vp hvp'

theorem inv_delete {bc bc' : BitCask} (hInv : Inv bc) {ts : Nat} {k : Bytes}
    (h : Delete bc ts k = .ok bc') : Inv bc' := by
  cases hd : (bc.keyDir k).isNone with
  | false =>
    rw [delete_unfold bc ts k hd] at h
    injection h with h
    subst h
    exact inv_deleteResult (inv_cond_roll hInv _) ts k
  | true =>
    unfold Delete at h
    rw [hd] at h
    exact absurd h (by simp)

/-- Invariant of the recovery enumeration loop. -/
def AccInv (acc : LoadAcc) : Prop :=
  (∀ i, acc.maxId < i → acc.files i = none) ∧
    (∀ k vp, acc.keyDir k = some vp → PointsOkF acc.files k vp)

theorem accInv_step {acc : LoadAcc} (hAcc : AccInv acc) (s : Nat × Bytes)
    (hfree : acc.files s.1 = none) : AccInv (loadStep acc s) := by
  obtain ⟨a1, a2⟩ := hAcc
  constructor
  · intro i hi
    have hi' : max acc.maxId s.1 < i := hi
    show (if i = s.1 then some s.2 else acc.files i) = none
    rw [if_neg (by omega)]
    exact a1 i (by omega)
  · intro k vp hvp
    have hvp' : rebuildKeyDirFromFile acc.keyDir s.1 s.2 k = some vp := hvp
    rcases rebuild_some hvp' with hold | hnew
    · obtain ⟨file, e, hf, hr, hd, hk2, hs2⟩ := a2 k vp hold
      refine ⟨file, e, ?_, hr, hd, hk2, hs2⟩
      show (if vp.FileId = s.1 then some s.2 else acc.files vp.FileId) = some file
      rw [if_neg ?_]
      · exact hf
      · intro hc
        rw [hc, hfree] at hf
        exact absurd hf (by simp)
    · obtain ⟨hfid, hb, e, hr, hd, hk2, hs2⟩ := hnew
      refine ⟨s.2, e, ?_, hr, hd, hk2, hs2⟩
      show (if vp.FileId = s.1 then some s.2 else acc.files vp.FileId) = some s.2
      rw [if_pos hfid]

theorem loadFold_inv : ∀ (disk : List (Nat × Bytes)) (acc : LoadAcc),
    disk.Pairwise (fun a b => a.1 < b.1) →
    (∀ s ∈ disk, acc.files s.1 = none) →
    AccInv acc → AccInv (disk.foldl loadStep acc) := by
  intro disk
  induction disk with
  | nil =>
    intro acc _ _ h
    exact h
  | cons s rest ih =>
    intro acc hp hfree hAcc
    rw [List.foldl_cons]
    have hp' := List.pairwise_cons.mp hp
    apply ih
    · exact hp'.2
    · intro s' hs'
      show (if s'.1 = s.1 then some s.2 else acc.files s'.1) = none
      rw [if_neg ?_]
      · exact hfree s' (List.mem_cons_of_mem _ hs')
      · have := hp'.1 s' hs'
        omega
    · exact accInv_step hAcc s (hfree s (List.mem_cons_self _ _))

theorem inv_open (disk : List (Nat × Bytes)) (hs : SortedDisk disk) : Inv (Open disk) := by
  have hAcc : AccInv (disk.foldl loadStep ⟨fun _ => none, fun _ => none, 0⟩) :=
    loadFold_inv disk _ hs (fun s _ => rfl)
      ⟨fun i _ => rfl, fun k vp h => absurd h (by simp)⟩
  simp only [Open, LoadFiles]
  by_cases h0 : 0 < (disk.foldl loadStep ⟨fun _ => none, fun _ => none, 0⟩).maxId
  · rw [if_pos h0, if_pos rfl]
    refine ⟨rfl, ?_, ?_, ?_⟩
    · unfold SizeInv
      simp only [List.length_nil, Nat.add_zero]
    · exact fun i hi => hAcc.1 i hi
    · exact fun k vp h => hAcc.2 k vp h
  · rw [if_neg h0, if_neg (by simp)]
    apply inv_roll
    · exact fun i hi => hAcc.1 i hi
    · exact fun k vp h => hAcc.2 k vp h

theorem inv_applyOp {bc : BitCask} (hInv : Inv bc) {op : Op} (hwf : op.WF) :
    Inv (applyOp bc op) := by
  cases op with
  | put ts k v => exact inv_put hInv ts hwf.1 hwf.2
  | del ts k =>
    show Inv (match Delete bc ts k with | .ok bc' => bc' | .error _ => bc)
    cases hd : Delete bc ts k with
    | ok bc' => exact inv_delete hInv hd
    | error e => exact hInv

theorem inv_run : ∀ (ops : List Op) (bc : BitCask), Inv bc → (∀ op ∈ ops, op.WF) →
    Inv (ops.foldl applyOp bc) := by
  intro ops
  induction ops with
  | nil =>
    intro bc h _
    exact h
  | cons op rest ih =>
    intro bc h hwf
    rw [List.foldl_cons]
    exact ih _ (inv_applyOp h (hwf op (List.mem_cons_self _ _)))
      (fun o ho => hwf o (List.mem_cons_of_mem _ ho))

/-- Every state reachable by `Open` plus successful mutations satisfies
the engine invariant. -/
theorem reachable_inv {bc : BitCask} (h : Reachable bc) : Inv bc := by
  obtain ⟨disk, ops, hs, hwf, rfl⟩ := h
  exact inv_run ops _ (inv_open disk hs) hwf

/-! ### Composition of recovery over the whole listing -/

theorem loadFold_keyDir : ∀ (disk : List (Nat × Bytes)) (acc : LoadAcc),
    (disk.foldl loadStep acc).keyDir =
      disk.foldl (fun kd s => rebuildKeyDirFromFile kd s.1 s.2) acc.keyDir := by
  intro disk
  induction disk with
  | nil => intro acc; rfl
  | cons s rest ih =>
    intro acc
    rw [List.foldl_cons, List.foldl_cons]
    exact ih _

theorem foldl_rebuild_global : ∀ (disk : List (Nat × Bytes)) (kd : KeyDir),
    disk.foldl (fun kd s => rebuildKeyDirFromFile kd s.1 s.2) kd =
      (allRecords disk).foldl globalStep kd := by
  intro disk
  induction disk with
  | nil => intro kd; rfl
  | cons s rest ih =>
    intro kd
    rw [List.foldl_cons]
    show _ = (allRecords (s :: rest)).foldl globalStep kd
    rw [show allRecords (s :: rest) = segRecordsWithId s ++ allRecords rest from rfl,
      List.foldl_append, ← rebuildKeyDirFromFile_global]
    exact ih _

theorem loadFiles_keyDir (disk : List (Nat × Bytes)) :
    (LoadFiles disk).keyDir =
      (disk.foldl loadStep ⟨fun _ => none, fun _ => none, 0⟩).keyDir := by
  simp only [LoadFiles]
  split <;> rfl

theorem open_keyDir (disk : List (Nat × Bytes)) :
    (Open disk).keyDir = (LoadFiles disk).keyDir := by
  simp only [Open]
  split <;> rfl

/-! ### SizeInv helpers -/

theorem sizeInv_flush {bc : BitCask} (h : SizeInv bc) : SizeInv (flushWriter bc) := by
  unfold SizeInv at h ⊢
  show ((if bc.currentFileId = bc.currentFileId
    then some ((bc.files bc.currentFileId).getD [] ++ bc.pending)
    else bc.files bc.currentFileId).getD []).length + (List.length ([] : Bytes)) = bc.activeSize
  rw [if_pos rfl]
  simp only [Option.getD_some, List.length_append, List.length_nil]
  omega

/-! ### Truncated tails -/

theorem parseEntry_truncated {tail : Bytes}
    (ht : tail.length < 21 ∨
      tail.length < 21 + declaredKeySize tail + declaredValueSize tail) :
    ∃ er, parseEntry tail = .error er := by
  simp only [parseEntry]
  split
  · exact ⟨.eof, rfl⟩
  · split
    · exact ⟨.unexpectedEOF, rfl⟩
    · split
      · exact ⟨.unexpectedEOF, rfl⟩
      · rename_i h0 h1 h2
        omega

/-- The byte image of a sequence of records, in order. -/
def encodeAll (entries : List LogEntry) : Bytes :=
  entries.foldr (fun e acc => encodeLogEntry e ++ acc) []

theorem rebuildGo_truncated (fid : Nat) (entries : List LogEntry)
    (hw : ∀ e ∈ entries, wellFormedEntry e) (tail : Bytes)
    (ht : tail.length < 21 ∨
      tail.length < 21 + declaredKeySize tail + declaredValueSize tail) :
    ∀ (kd : KeyDir) (off : Nat),
    rebuildGo fid kd (encodeAll entries ++ tail) off =
      rebuildGo fid kd (encodeAll entries) off := by
  induction entries with
  | nil =>
    intro kd off
    obtain ⟨er, her⟩ := parseEntry_truncated ht
    show rebuildGo fid kd ([] ++ tail) off = rebuildGo fid kd [] off
    rw [List.nil_append, rebuildGo_eq_stop her,
      rebuildGo_eq_stop (show parseEntry [] = .error .eof from rfl)]
  | cons e es ih =>
    intro kd off
    have hwe : wellFormedEntry e := hw e (List.mem_cons_self _ _)
    have hwes : ∀ e' ∈ es, wellFormedEntry e' := fun e' h' => hw e' (List.mem_cons_of_mem _ h')
    have hunf : encodeAll (e :: es) = encodeLogEntry e ++ encodeAll es := rfl
    rw [hunf, List.append_assoc,
      rebuildGo_eq_step (parseEntry_encode e hwe (encodeAll es ++ tail)),
      rebuildGo_eq_step (parseEntry_encode e hwe (encodeAll es)),
      List.drop_left' (encodeLogEntry_length e), List.drop_left' (encodeLogEntry_length e)]
    exact ih hwes _ _

/-! ### Close: control flow with step outcomes as parameters -/

/-- The shutdown steps of `Close` (`bitcask.go`): signal the background
task, wait for it, flush the buffer, fsync the active file, close each
segment file. -/
inductive CloseStep where
  | signal
  | wait
  | flush
  | fsync
  | closeFile (id : Nat)
deriving Repr, DecidableEq

/-- The possible failures of the fallible shutdown steps. -/
inductive CloseErr where
  | flushFailed
  | fsyncFailed
  | closeFailed (id : Nat)
deriving Repr, DecidableEq

/-- The file-closing loop of `Close`: `return` on the first close error. -/
def closeFilesLoop (closeFails : Nat → Bool) : List Nat → List CloseStep × Option CloseErr
  | [] => ([], none)
  | id :: rest =>
    if closeFails id then ([.closeFile id], some (.closeFailed id))
    else
      let r := closeFilesLoop closeFails rest
      (.closeFile id :: r.1, r.2)

/-- The control flow of `Close` (`bitcask.go`), with the outcome of each
fallible I/O step passed as a parameter: `close(done)` then `Wait()`
always run; the flush runs when a writer exists and an error returns
immediately; the fsync runs when an active file exists and an error
returns immediately; then each file is closed, returning on the first
error.  The returned pair is (steps attempted, returned error). -/
def CloseRun (hasWriter hasActive : Bool) (fileIds : List Nat)
    (flushFails fsyncFails : Bool) (closeFails : Nat → Bool) :
    List CloseStep × Option CloseErr :=
  if hasWriter && flushFails then ([.signal, .wait, .flush], some .flushFailed)
  else
    let s1 : List CloseStep :=
      if hasWriter then [.signal, .wait, .flush] else [.signal, .wait]
    if hasActive && fsyncFails then (s1 ++ [.fsync], some .fsyncFailed)
    else
      let s2 := if hasActive then s1 ++ [.fsync] else s1
      let r := closeFilesLoop closeFails fileIds
      (s2 ++ r.1, r.2)

/-- The full step sequence of a `Close` in which every step runs. -/
def fullCloseSteps (fileIds : List Nat) : List CloseStep :=
  [.signal, .wait, .flush, .fsync] ++ fileIds.map CloseStep.closeFile

theorem closeFilesLoop_spec (cf : Nat → Bool) : ∀ ids : List Nat,
    (∃ t, (closeFilesLoop cf ids).1 ++ t = ids.map CloseStep.closeFile) ∧
      ((closeFilesLoop cf ids).2 = none →
        (closeFilesLoop cf ids).1 = ids.map CloseStep.closeFile) := by
  intro ids
  induction ids with
  | nil => exact ⟨⟨[], rfl⟩, fun _ => rfl⟩
  | cons id rest ih =>
    unfold closeFilesLoop
    by_cases hc : cf id
    · rw [if_pos hc]
      refine ⟨⟨rest.map CloseStep.closeFile, rfl⟩, fun hn => absurd hn (by simp)⟩
    · rw [if_neg hc]
      obtain ⟨⟨t, hts⟩, hok⟩ := ih
      constructor
      · refine ⟨t, ?_⟩
        show CloseStep.closeFile id :: ((closeFilesLoop cf rest).1 ++ t) = _
        rw [hts]
        rfl
      · intro hn
        show CloseStep.closeFile id :: (closeFilesLoop cf rest).1 = _
        rw [hok hn]
        rfl

theorem put_get_core (bc1 : BitCask) (hs : SizeInv bc1) (ts : Nat) (k v : Bytes)
    (hk : k.length < 2 ^ 32) (hv : v.length < 2 ^ 32) :
    Get (putResult bc1 ts k v) k = .ok v := by
  obtain ⟨hp1, hp2⟩ := putResult_points bc1 hs ts k v hk hv
  have hkd : (putResult bc1 ts k v).keyDir k =
      some ⟨bc1.currentFileId, bc1.activeSize, (NewLogEntry ts k v false).Size⟩ := by
    show (if k = k then _ else _) = _
    rw [if_pos rfl]
  unfold Get
  rw [hkd]
  dsimp only
  rw [hp1]
  dsimp only
  rw [hp2]
  rfl

/-! ## The claims -/

/-- C1: for every key `k` and value `v` (within the 32-bit wire-format
length fields; `v` may be empty or contain any bytes including 0x00),
after a successful `Put(k, v)` with no intervening mutation of `k`,
`Get(k)` succeeds and returns exactly `v`. -/
theorem putGetRoundTrip (bc : BitCask) (hInv : Inv bc) (ts : Nat) (k v : Bytes)
    (hk : k.length < 2 ^ 32) (hv : v.length < 2 ^ 32) :
    Get (Put bc ts k v) k = .ok v := by
  rw [put_unfold]
  exact put_get_core _ (inv_cond_roll hInv _).2.1 ts k v hk hv

theorem putGetRoundTrip_witness :
    Inv (Open []) ∧ ([107] : Bytes).length < 2 ^ 32 ∧ ([0] : Bytes).length < 2 ^ 32 ∧
      Get (Put (Open []) 5 [107] [0]) [107] = .ok [0] :=
  ⟨inv_open [] List.Pairwise.nil, by norm_num, by norm_num,
    putGetRoundTrip (Open []) (inv_open [] List.Pairwise.nil) 5 [107] [0]
      (by norm_num) (by norm_num)⟩

/-- C2: recovery replays segment files in ascending segment-id order
(the sorted listing) and processes each file's records in physical append
order from offset 0, tombstones removing and other records upserting
`{id, offset, size}`; timestamps are never consulted, so every key ends up
at the last record for it in (segment id, intra-segment offset) order. -/
theorem recoveryLastWriterWins (disk : List (Nat × Bytes)) (hs : SortedDisk disk)
    (k : Bytes) :
    (Open disk).keyDir k =
      match (allRecords disk).reverse.find? (fun r => r.2.1.Key == k) with
      | none => none
      | some r => if r.2.1.IsDeleted then none
          else some ⟨r.1, r.2.2.1, r.2.2.2⟩ := by
  rw [open_keyDir, loadFiles_keyDir, loadFold_keyDir, foldl_rebuild_global,
    foldl_globalStep_lookup]

theorem recoveryLastWriterWins_witness :
    SortedDisk [] ∧ (Open ([] : List (Nat × Bytes))).keyDir [1] = none :=
  ⟨List.Pairwise.nil, recoveryLastWriterWins [] List.Pairwise.nil [1]⟩

set_option maxRecDepth 100000 in
/-- C3: decoding fails on a size below the 21-byte header and on a header
declaring key + value lengths beyond the supplied range; but the stored
CRC-32C is NOT verified: a record whose stored checksum (0) disagrees with
the checksum of its fields still decodes successfully, so the read path
does not validate the checksum. -/
theorem decodeFailureModes :
    readLogEntryWithSize
      (encodeLogEntry ⟨0, 5, 1, 1, false, [107], [118]⟩) 0 20 =
        .error .unexpectedEOF ∧
    readLogEntryWithSize
      [0, 0, 0, 0, 0, 0, 0, 0, 0, 0, 0, 0, 0, 0, 0, 9, 0, 0, 0, 0, 0, 1, 2] 0 23 =
        .error .unexpectedEOF ∧
    readLogEntryWithSize
      (encodeLogEntry ⟨0, 5, 1, 1, false, [107], [118]⟩) 0 23 =
        .ok ⟨0, 5, 1, 1, false, [107], [118]⟩ ∧
    calcCRC (u64be 5 ++ u32be 1 ++ u32be 1 ++ [boolByte false] ++ [107] ++ [118]) ≠ 0 :=
  ⟨by decide, by decide, by decide, by decide⟩

/-- C4: when the tracked active size plus the record's total size reaches
`MaxActiveFileSize` (inclusive `>=` check), `Put` and `Delete` rotate
BEFORE the append: the segment id advances by one, the record's bytes
start at offset 0 of the new segment, and `Put`'s locator records the new
segment id and offset 0. -/
theorem rotationInclusiveThreshold (bc : BitCask) (ts : Nat) (k v : Bytes)
    (hfree : bc.files (bc.currentFileId + 1) = none)
    (hov : MaxActiveFileSize ≤ bc.activeSize + (NewLogEntry ts k v false).Size) :
    (Put bc ts k v).currentFileId = bc.currentFileId + 1 ∧
    (Put bc ts k v).keyDir k =
      some ⟨bc.currentFileId + 1, 0, (NewLogEntry ts k v false).Size⟩ ∧
    (Put bc ts k v).files (bc.currentFileId + 1) =
      some (encodeLogEntry (NewLogEntry ts k v false)) ∧
    (∀ ts', (bc.keyDir k).isNone = false →
      MaxActiveFileSize ≤ bc.activeSize + (NewLogEntry ts' k [] true).Size →
      Delete bc ts' k = .ok (deleteResult (RollNewFile bc) ts' k) ∧
        (deleteResult (RollNewFile bc) ts' k).currentFileId = bc.currentFileId + 1 ∧
        (deleteResult (RollNewFile bc) ts' k).files (bc.currentFileId + 1) = some [] ∧
        (deleteResult (RollNewFile bc) ts' k).pending =
          encodeLogEntry (NewLogEntry ts' k [] true)) := by
  have hroll1 : (RollNewFile bc).files (bc.currentFileId + 1) = some [] := by
    show (if bc.currentFileId + 1 = bc.currentFileId + 1
      then some ((bc.files (bc.currentFileId + 1)).getD [])
      else bc.files (bc.currentFileId + 1)) = some []
    rw [if_pos rfl, hfree]
    rfl
  refine ⟨?_, ?_, ?_, ?_⟩
  · rw [put_unfold, if_pos (Or.inr hov)]
    rfl
  · rw [put_unfold, if_pos (Or.inr hov)]
    show (if k = k then _ else _) = _
    rw [if_pos rfl]
    rfl
  · rw [put_unfold, if_pos (Or.inr hov)]
    show (if bc.currentFileId + 1 = (RollNewFile bc).currentFileId
      then some (((RollNewFile bc).files (RollNewFile bc).currentFileId).getD [] ++
        ((RollNewFile bc).pending ++ encodeLogEntry (NewLogEntry ts k v false)))
      else (RollNewFile bc).files (bc.currentFileId + 1)) = _
    rw [show (RollNewFile bc).currentFileId = bc.currentFileId + 1 from rfl, hroll1,
      if_pos rfl]
    rfl
  · intro ts' hsome hov'
    refine ⟨?_, rfl, hroll1, ?_⟩
    · rw [delete_unfold bc ts' k hsome, if_pos (Or.inr hov')]
    · show (RollNewFile bc).pending ++ encodeLogEntry (NewLogEntry ts' k [] true) = _
      rw [show (RollNewFile bc).pending = [] from rfl, List.nil_append]

theorem rotationInclusiveThreshold_witness :
    ((⟨fun _ => none, fun i => if i = 1 then some [] else none, 1,
        MaxActiveFileSize, [], true⟩ : BitCask).files 2 = none) ∧
    MaxActiveFileSize ≤ MaxActiveFileSize + (NewLogEntry 0 [1] [2] false).Size ∧
    ((Put (⟨fun _ => none, fun i => if i = 1 then some [] else none, 1,
        MaxActiveFileSize, [], true⟩ : BitCask) 0 [1] [2]).currentFileId = 2 ∧
      (Put (⟨fun _ => none, fun i => if i = 1 then some [] else none, 1,
        MaxActiveFileSize, [], true⟩ : BitCask) 0 [1] [2]).keyDir [1] =
        some ⟨2, 0, (NewLogEntry 0 [1] [2] false).Size⟩ ∧
      (Put (⟨fun _ => none, fun i => if i = 1 then some [] else none, 1,
        MaxActiveFileSize, [], true⟩ : BitCask) 0 [1] [2]).files 2 =
        some (encodeLogEntry (NewLogEntry 0 [1] [2] false)) ∧
      (∀ ts', ((⟨fun _ => none, fun i => if i = 1 then some [] else none, 1,
          MaxActiveFileSize, [], true⟩ : BitCask).keyDir [1]).isNone = false →
        MaxActiveFileSize ≤ MaxActiveFileSize + (NewLogEntry ts' [1] [] true).Size →
        Delete (⟨fun _ => none, fun i => if i = 1 then some [] else none, 1,
            MaxActiveFileSize, [], true⟩ : BitCask) ts' [1] =
          .ok (deleteResult (RollNewFile (⟨fun _ => none,
            fun i => if i = 1 then some [] else none, 1,
            MaxActiveFileSize, [], true⟩ : BitCask)) ts' [1]) ∧
        (deleteResult (RollNewFile (⟨fun _ => none,
          fun i => if i = 1 then some [] else none, 1,
          MaxActiveFileSize, [], true⟩ : BitCask)) ts' [1]).currentFileId = 2 ∧
        (deleteResult (RollNewFile (⟨fun _ => none,
          fun i => if i = 1 then some [] else none, 1,
          MaxActiveFileSize, [], true⟩ : BitCask)) ts' [1]).files 2 = some [] ∧
        (deleteResult (RollNewFile (⟨fun _ => none,
          fun i => if i = 1 then some [] else none, 1,
          MaxActiveFileSize, [], true⟩ : BitCask)) ts' [1]).pending =
          encodeLogEntry (NewLogEntry ts' [1] [] true))) :=
  ⟨rfl, Nat.le_add_right _ _,
    rotationInclusiveThreshold
      (⟨fun _ => none, fun i => if i = 1 then some [] else none, 1,
        MaxActiveFileSize, [], true⟩ : BitCask) 0 [1] [2] rfl (Nat.le_add_right _ _)⟩

/-- C5: `Delete` on a key absent from the directory fails with the
not-found error, writes no tombstone and leaves the state unchanged;
consequently after `Put(k, v); Delete(k)` a second `Delete(k)` also fails
not-found. -/
theorem deleteMissingKeyNoop (bc : BitCask) (ts : Nat) (k : Bytes)
    (h : bc.keyDir k = none) :
    Delete bc ts k = .error .keyNotFound ∧
    applyOp bc (.del ts k) = bc ∧
    (∀ ts1 ts2 ts3 v, ∃ bc2,
      Delete (Put bc ts1 k v) ts2 k = .ok bc2 ∧
      Delete bc2 ts3 k = .error .keyNotFound) := by
  have h1 : Delete bc ts k = .error .keyNotFound := by
    unfold Delete
    rw [h]
    rfl
  refine ⟨h1, ?_, ?_⟩
  · show (match Delete bc ts k with | .ok bc' => bc' | .error _ => bc) = bc
    rw [h1]
  · intro ts1 ts2 ts3 v
    have hsome : ((Put bc ts1 k v).keyDir k).isNone = false := by
      rw [put_unfold]
      show ((if k = k then some _ else _ : Option ValuePointer)).isNone = false
      rw [if_pos rfl]
      rfl
    refine ⟨_, delete_unfold (Put bc ts1 k v) ts2 k hsome, ?_⟩
    unfold Delete
    have hgone : ((deleteResult
        (if (Put bc ts1 k v).hasActive = false ∨
          MaxActiveFileSize ≤ (Put bc ts1 k v).activeSize + (NewLogEntry ts2 k [] true).Size
          then RollNewFile (Put bc ts1 k v) else Put bc ts1 k v) ts2 k).keyDir k) = none := by
      show (if k = k then none else _) = none
      rw [if_pos rfl]
    rw [hgone]
    rfl

theorem deleteMissingKeyNoop_witness :
    (Open ([] : List (Nat × Bytes))).keyDir [9] = none ∧
      Delete (Open []) 0 [9] = .error .keyNotFound ∧
      applyOp (Open []) (.del 0 [9]) = Open [] ∧
      (∀ ts1 ts2 ts3 v, ∃ bc2,
        Delete (Put (Open []) ts1 [9] v) ts2 [9] = .ok bc2 ∧
        Delete bc2 ts3 [9] = .error .keyNotFound) := by
  have h : (Open ([] : List (Nat × Bytes))).keyDir [9] = none := rfl
  obtain ⟨a, b, c⟩ := deleteMissingKeyNoop (Open []) 0 [9] h
  exact ⟨h, a, b, c⟩

/-- C6: a truncated final record (fewer bytes than the 21-byte header, or
fewer than header plus the declared key and value lengths) terminates the
recovery scan of the segment cleanly: the truncated tail is discarded and
all preceding complete records are indexed exactly as without the tail. -/
theorem truncatedTailTolerated (kd : KeyDir) (fid : Nat) (entries : List LogEntry)
    (hw : ∀ e ∈ entries, wellFormedEntry e) (tail : Bytes)
    (ht : tail.length < 21 ∨
      tail.length < 21 + declaredKeySize tail + declaredValueSize tail) :
    rebuildKeyDirFromFile kd fid (encodeAll entries ++ tail) =
      rebuildKeyDirFromFile kd fid (encodeAll entries) :=
  rebuildGo_truncated fid entries hw tail ht kd 0

theorem truncatedTailTolerated_witness :
    (∀ e ∈ [NewLogEntry 7 [1] [2] false], wellFormedEntry e) ∧
    (([0, 0, 0] : Bytes).length < 21 ∨
      ([0, 0, 0] : Bytes).length < 21 + declaredKeySize [0, 0, 0] +
        declaredValueSize [0, 0, 0]) ∧
    rebuildKeyDirFromFile (fun _ => none) 1
        (encodeAll [NewLogEntry 7 [1] [2] false] ++ [0, 0, 0]) =
      rebuildKeyDirFromFile (fun _ => none) 1
        (encodeAll [NewLogEntry 7 [1] [2] false]) := by
  have hw : ∀ e ∈ [NewLogEntry 7 [1] [2] false], wellFormedEntry e := by
    intro e he
    rw [List.mem_singleton] at he
    subst he
    exact newLogEntry_wf 7 [1] [2] false (by norm_num) (by norm_num)
  have ht : (([0, 0, 0] : Bytes).length < 21 ∨
      ([0, 0, 0] : Bytes).length < 21 + declaredKeySize [0, 0, 0] +
        declaredValueSize [0, 0, 0]) := Or.inl (by norm_num)
  exact ⟨hw, ht, truncatedTailTolerated (fun _ => none) 1 _ hw _ ht⟩

/-- C7: in every state reachable by `Open` followed by successful `Put`
and `Delete` operations (within the wire format's 32-bit length fields),
every directory entry `(k, {s, o, n})` is backed by segment `s`: the `n`
bytes at offset `o` decode to a well-formed non-tombstone record whose key
is `k`, and `n` is the record's total encoded size 21 + key length +
value length. -/
theorem directoryEntriesWellFormed (bc : BitCask) (h : Reachable bc) (k : Bytes)
    (vp : ValuePointer) (hvp : bc.keyDir k = some vp) :
    ∃ file e, bc.files vp.FileId = some file ∧
      readLogEntryWithSize file vp.Offset vp.Size = .ok e ∧
      e.IsDeleted = false ∧ e.Key = k ∧
      vp.Size = 21 + e.Key.length + e.Value.length :=
  (reachable_inv h).2.2.2 k vp hvp

/-- The one-put state used as a concrete reachable witness. -/
def witState : BitCask := [Op.put 5 [1] [2]].foldl applyOp (Open [])

theorem witState_reachable : Reachable witState := by
  refine ⟨[], [Op.put 5 [1] [2]], List.Pairwise.nil, ?_, rfl⟩
  intro op hop
  rw [List.mem_singleton] at hop
  subst hop
  exact ⟨by norm_num, by norm_num⟩

theorem directoryEntriesWellFormed_witness :
    Reachable witState ∧ witState.keyDir [1] = some ⟨1, 0, 23⟩ ∧
      (∃ file e, witState.files 1 = some file ∧
        readLogEntryWithSize file 0 23 = .ok e ∧
        e.IsDeleted = false ∧ e.Key = [1] ∧
        (23 : Nat) = 21 + e.Key.length + e.Value.length) :=
  ⟨witState_reachable, by decide,
    directoryEntriesWellFormed witState witState_reachable [1] ⟨1, 0, 23⟩ (by decide)⟩

/-- C8: the active segment's on-disk bytes plus the bytes still held in
the buffered writer equal the tracked active size after `Put`, `Delete`,
`Sync`, rotation and `Open`; `Put` flushes the writer before its locator
is observable (its pending buffer is empty afterwards), the recorded
offset is the buffered-bytes-inclusive pre-append size, and a positional
read at the freshly installed locator resolves to the written value. -/
theorem activeSizeAccounting (bc : BitCask) (hInv : Inv bc) :
    (∀ ts k v, k.length < 2 ^ 32 → v.length < 2 ^ 32 →
      SizeInv (Put bc ts k v) ∧ (Put bc ts k v).pending = []) ∧
    (∀ ts k bc', Delete bc ts k = .ok bc' → SizeInv bc') ∧
    SizeInv (Sync bc) ∧
    SizeInv (RollNewFile bc) ∧
    (∀ disk, SortedDisk disk → SizeInv (Open disk)) ∧
    (∀ ts k v, k.length < 2 ^ 32 → v.length < 2 ^ 32 →
      ∃ vp file e, (Put bc ts k v).keyDir k = some vp ∧
        (Put bc ts k v).files vp.FileId = some file ∧
        readLogEntryWithSize file vp.Offset vp.Size = .ok e ∧
        e.Value = v) := by
  refine ⟨?_, ?_, ?_, ?_, ?_, ?_⟩
  · intro ts k v hk hv
    exact ⟨(inv_put hInv ts hk hv).2.1, rfl⟩
  · intro ts k bc' hd
    exact (inv_delete hInv hd).2.1
  · exact sizeInv_flush hInv.2.1
  · exact (inv_roll hInv.2.2.1 hInv.2.2.2).2.1
  · intro disk hs
    exact (inv_open disk hs).2.1
  · intro ts k v hk hv
    rw [put_unfold]
    have hs1 : SizeInv (if bc.hasActive = false ∨
        MaxActiveFileSize ≤ bc.activeSize + (NewLogEntry ts k v false).Size
        then RollNewFile bc else bc) := (inv_cond_roll hInv _).2.1
    revert hs1
    generalize (if bc.hasActive = false ∨
        MaxActiveFileSize ≤ bc.activeSize + (NewLogEntry ts k v false).Size
        then RollNewFile bc else bc) = bc1
    intro hs1
    obtain ⟨hp1, hp2⟩ := putResult_points bc1 hs1 ts k v hk hv
    refine ⟨⟨bc1.currentFileId, bc1.activeSize, (NewLogEntry ts k v false).Size⟩, _,
      NewLogEntry ts k v false, ?_, hp1, hp2, rfl⟩
    show (if k = k then _ else _) = _
    rw [if_pos rfl]

theorem activeSizeAccounting_witness :
    Inv (Open []) ∧ SizeInv (Sync (Open [])) :=
  ⟨inv_open [] List.Pairwise.nil,
    (activeSizeAccounting (Open []) (inv_open [] List.Pairwise.nil)).2.2.1⟩

/-- C9 counterexample: when the flush step of `Close` fails, the fsync and
the file closes are NOT attempted — the claim that every remaining step is
still attempted is false on this control flow. -/
theorem closeStopsEarly_cex :
    (CloseRun true true [7] true false (fun _ => false)).1 =
      [.signal, .wait, .flush] ∧
    (CloseRun true true [7] true false (fun _ => false)).2 =
      some .flushFailed ∧
    CloseStep.fsync ∉ (CloseRun true true [7] true false (fun _ => false)).1 ∧
    CloseStep.closeFile 7 ∉ (CloseRun true true [7] true false (fun _ => false)).1 := by
  decide

/-- C9 (amended): `Close` attempts its shutdown steps in order and returns
the first error encountered, but a failing step aborts the sequence: the
attempted steps always form a prefix of the full sequence, all steps run
exactly when no error occurs, and a flush (or fsync) failure returns
immediately with the later steps unattempted. -/
theorem closeFirstErrorStops (fileIds : List Nat) (ff fs : Bool) (cf : Nat → Bool) :
    (∃ t, (CloseRun true true fileIds ff fs cf).1 ++ t = fullCloseSteps fileIds) ∧
    ((CloseRun true true fileIds ff fs cf).2 = none →
      (CloseRun true true fileIds ff fs cf).1 = fullCloseSteps fileIds) ∧
    (ff = true →
      CloseRun true true fileIds ff fs cf = ([.signal, .wait, .flush], some .flushFailed)) ∧
    (ff = false → fs = true →
      CloseRun true true fileIds ff fs cf =
        ([.signal, .wait, .flush, .fsync], some .fsyncFailed)) := by
  cases ff with
  | true =>
    refine ⟨⟨[.fsync] ++ fileIds.map CloseStep.closeFile, rfl⟩, ?_, fun _ => rfl,
      fun hc => absurd hc (by simp)⟩
    intro hn
    exact absurd hn (by simp [CloseRun])
  | false =>
    cases fs with
    | true =>
      refine ⟨⟨fileIds.map CloseStep.closeFile, rfl⟩, ?_, fun hc => absurd hc (by simp),
        fun _ _ => rfl⟩
      intro hn
      exact absurd hn (by simp [CloseRun])
    | false =>
      obtain ⟨⟨t, hts⟩, hok⟩ := closeFilesLoop_spec cf fileIds
      refine ⟨⟨t, ?_⟩, ?_, fun hc => absurd hc (by simp), fun _ hc => absurd hc (by simp)⟩
      · show ([.signal, .wait, .flush, .fsync] ++ (closeFilesLoop cf fileIds).1) ++ t = _
        rw [List.append_assoc, hts]
        rfl
      · intro hn
        have hn' : (closeFilesLoop cf fileIds).2 = none := hn
        show [.signal, .wait, .flush, .fsync] ++ (closeFilesLoop cf fileIds).1 = _
        rw [hok hn']
        rfl

theorem closeFirstErrorStops_witness :
    (CloseRun true true [3] false false (fun _ => false)).2 = none ∧
      (CloseRun true true [3] false false (fun _ => false)).1 = fullCloseSteps [3] :=
  ⟨by decide, (closeFirstErrorStops [3] false false (fun _ => false)).2.1 (by decide)⟩

/-- C10: in every reachable state, the segment id of every locator in the
key directory is an id present in the engine's map of open segment
handles, and consequently the segment-handle-missing branch of `Get`
(its internal "file not found" error) is unreachable. -/
theorem locatorSegmentsOpen (bc : BitCask) (h : Reachable bc) :
    (∀ k vp, bc.keyDir k = some vp → (bc.files vp.FileId).isSome = true) ∧
    (∀ k, Get bc k ≠ .error .fileNotFound) := by
  have hInv := reachable_inv h
  constructor
  · intro k vp hvp
    obtain ⟨file, e, hf, _, _, _, _⟩ := hInv.2.2.2 k vp hvp
    rw [hf]
    rfl
  · intro k
    unfold Get
    cases hkd : bc.keyDir k with
    | none => simp
    | some vp =>
      obtain ⟨file, e, hf, hr, hd, _, _⟩ := hInv.2.2.2 k vp hkd
      dsimp only
      rw [hf]
      dsimp only
      rw [hr]
      dsimp only
      split <;> simp

theorem locatorSegmentsOpen_witness :
    Reachable witState ∧
      (∀ k vp, witState.keyDir k = some vp → (witState.files vp.FileId).isSome = true) ∧
      (∀ k, Get witState k ≠ .error .fileNotFound) :=
  ⟨witState_reachable, locatorSegmentsOpen witState witState_reachable⟩

end GoCask
